import Mathlib

/-!
Verification of the core data-processing functions of the online_ths
repository (src/server.js and src/process_excel_cli.js; the two files contain
identical copies of these functions).  JavaScript strings are modelled as
lists of UTF-16 code units; insertion-ordered JavaScript objects are modelled
as association lists; the stable Array.sort is modelled by insertion sort
with the same comparator.  Loops whose termination is not structural are
given a fuel argument that the wrapper instantiates with a bound the loop
never exhausts.
-/

namespace OnlineThs

/-- A JavaScript string: its sequence of UTF-16 code units. -/
abbrev JSStr := List Nat

/-- The code units matched by the regex character class for CJK ideographs
(U+4E00 to U+9FFF) used in calculateChineseLength, src/server.js line 192. -/
def isCJK (u : Nat) : Bool := 0x4e00 ≤ u && u ≤ 0x9fff

/-- calculateChineseLength, src/server.js lines 185-198: CJK code units count
two columns, every other code unit counts one. -/
def calculateChineseLength (text : JSStr) : Nat :=
  let chineseCount := (text.filter isCJK).length
  chineseCount * 2 + (text.length - chineseCount)

/-- The code units stripped by the JavaScript String trim method and matched
by the whitespace regex class: tab, line feed, vertical tab, form feed,
carriage return, space, no-break space, the Unicode space separators, the
line and paragraph separators, and the zero-width no-break space. -/
def isJsWhitespace (u : Nat) : Bool :=
  [9, 10, 11, 12, 13, 32, 160, 0x1680, 0x2000, 0x2001, 0x2002, 0x2003,
    0x2004, 0x2005, 0x2006, 0x2007, 0x2008, 0x2009, 0x200a, 0x2028, 0x2029,
    0x202f, 0x205f, 0x3000, 0xfeff].contains u

/-- The JavaScript String trim method: remove leading and trailing
whitespace. -/
def jsTrim (s : JSStr) : JSStr :=
  ((s.dropWhile isJsWhitespace).reverse.dropWhile isJsWhitespace).reverse

/-- The global replace of each maximal whitespace run by a single space
(code unit 32), as in normalizeReasonCategory, src/server.js line 208.  The
Bool flag records whether the scanner is inside a whitespace run that has
already emitted its space. -/
def collapseWsAux : Bool → JSStr → JSStr
  | _, [] => []
  | inRun, c :: rest =>
    if isJsWhitespace c then
      if inRun then collapseWsAux true rest else 32 :: collapseWsAux true rest
    else c :: collapseWsAux false rest

/-- The whitespace-run replacement applied to a whole string. -/
def collapseWs (s : JSStr) : JSStr := collapseWsAux false s

/-- normalizeReasonCategory, src/server.js lines 201-210.  A value of none
models a null or undefined cell; every other cell arrives as a string after
the JavaScript String coercion. -/
def normalizeReasonCategory : Option JSStr → JSStr
  | none => []
  | some s => collapseWs (jsTrim s)

/-- The JavaScript endsWith test for a one-character needle. -/
def jsEndsWith (s : JSStr) (c : Nat) : Bool := s.getLast? == some c

/-- The loop that repeatedly removes a trailing plus sign, as in
trimReasonCategoryField, src/server.js lines 217-219 and 238-240; the fuel
argument bounds the number of iterations. -/
def stripLoop : Nat → JSStr → JSStr
  | 0, s => s
  | fuel + 1, s => if jsEndsWith s 43 then stripLoop fuel s.dropLast else s

/-- The trailing-plus removal loop; each iteration shortens the string, so
the string length is enough fuel. -/
def stripTrailingPlus (s : JSStr) : JSStr := stripLoop s.length s

/-- The JavaScript lastIndexOf for one code unit; none models the JavaScript
result -1 (absent). -/
def lastIndexOf (c : Nat) : JSStr → Option Nat
  | [] => none
  | x :: xs =>
    match lastIndexOf c xs with
    | some i => some (i + 1)
    | none => if x = c then some 0 else none

/-- The descending loop of trimReasonCategoryField, src/server.js lines
224-244, with the current loop counter as the last argument. -/
def truncateLoop (reasonCategory : JSStr) (maxLength : Nat) : Nat → JSStr
  | 0 => []
  | i + 1 =>
    let truncated := reasonCategory.take (i + 1)
    if calculateChineseLength truncated ≤ maxLength then
      let cut :=
        match lastIndexOf 43 truncated with
        | some lastPlusIndex =>
          if lastPlusIndex < truncated.length - 1 then truncated.take lastPlusIndex
          else truncated
        | none => truncated
      stripTrailingPlus cut
    else truncateLoop reasonCategory maxLength i

/-- trimReasonCategoryField, src/server.js lines 213-248. -/
def trimReasonCategoryField (reasonCategory : JSStr) (maxLength : Nat) : JSStr :=
  if calculateChineseLength reasonCategory ≤ maxLength then
    stripTrailingPlus reasonCategory
  else truncateLoop reasonCategory maxLength reasonCategory.length

/-- processReasonCategoryField, src/server.js lines 251-263, applied to one
cell of the category column: the whitespace normalization followed by the
trim at the default width budget 36.  The per-row exception handler of the
source cannot fire in this total model. -/
def processReasonCategoryValue (raw : Option JSStr) : JSStr :=
  trimReasonCategoryField (normalizeReasonCategory raw) 36

/-- b starts with a (a is an initial segment of b). -/
def InitSeg (a b : JSStr) : Prop := ∃ t, b = a ++ t

/-! ### Column resolution -/

/-- The JavaScript String includes test: the needle occurs as a contiguous
substring. -/
def jsIncludes (s target : JSStr) : Bool :=
  s.tails.any fun t => target.isPrefixOf t

/-- findColumn (src/server.js lines 156-182).  A row is represented by its
ordered key list (Object.keys); only the first row is consulted.  The three
matching passes are tried in order: exact key, key equal after trimming,
key containing the target as a substring; none returns the JavaScript
null. -/
def findColumn (data : List (List JSStr)) (columnName : JSStr) : Option JSStr :=
  match data with
  | [] => none
  | firstRow :: _ =>
    if firstRow.contains columnName then some columnName
    else
      match firstRow.find? fun col => jsTrim col == columnName with
      | some col => some col
      | none => firstRow.find? fun col => jsIncludes col columnName

/-! ### Paginator and stats definitions.  Rows are kept abstract: only the
value of the grouping column (a string) is read by these functions. -/

variable {α : Type}

/-- One step of building the categoryCounts object
(src/server.js lines 284-288): the stored properties of a JavaScript object
in property-creation order, modelled by an association list — an existing
key is updated in place, a new key is appended.  Enumeration order, which
differs for array-index keys, is applied separately by jsEntries. -/
def bumpCount (counts : List (String × Nat)) (c : String) : List (String × Nat) :=
  if counts.any fun p => p.1 == c then
    counts.map fun p => if p.1 == c then (p.1, p.2 + 1) else p
  else counts ++ [(c, 1)]

/-- The categoryCounts object built by the first forEach of
splitIntoPagesByCategoryPriority (src/server.js lines 284-288). -/
def categoryCounts (cat : α → String) (data : List α) : List (String × Nat) :=
  data.foldl (fun acc row => bumpCount acc (cat row)) []

/-- A decimal digit code point. -/
def isDigitChar (c : Char) : Bool := 48 ≤ c.toNat && c.toNat ≤ 57

/-- The numeric value of a list of decimal digit characters. -/
def decimalVal (l : List Char) : Nat :=
  l.foldl (fun acc c => acc * 10 + (c.toNat - 48)) 0

/-- Whether a string is a JavaScript array-index property key: the canonical
decimal form (digits only, no leading zero except the string 0 itself) of an
integer strictly below 2 ^ 32 - 1. -/
def isArrayIndexKey (s : String) : Bool :=
  let l := s.toList
  (!l.isEmpty && l.all isDigitChar && ((l.headD '0') != '0' || l == ['0'])) &&
    decide (decimalVal l < 4294967295)

/-- The enumeration order of Object.keys and Object.entries on a JavaScript
object: array-index keys first, in ascending numeric order, followed by the
remaining string keys in property-creation order. -/
def jsEntries (counts : List (String × Nat)) : List (String × Nat) :=
  (List.insertionSort
      (fun p q : String × Nat => decimalVal p.1.toList ≤ decimalVal q.1.toList)
      (counts.filter fun p => isArrayIndexKey p.1)) ++
    (counts.filter fun p => !(isArrayIndexKey p.1))

/-- The sentinel group name (Other Concepts). -/
def otherConcept : String := "其他概念"

/-- sortedCategories (src/server.js lines 291-298): the non-sentinel entries
of Object.entries sorted by count descending — Array.prototype.sort with
comparator (a, b) => b[1] - a[1] is a stable sort, modelled by insertion
sort with the matching relation — followed by the sentinel category when
present. -/
def sortedCategories (cat : α → String) (data : List α) : List String :=
  let counts := categoryCounts cat data
  let sorted := (List.insertionSort (fun p q : String × Nat => q.2 ≤ p.2)
      ((jsEntries counts).filter fun p => p.1 != otherConcept)).map Prod.fst
  if counts.any fun p => p.1 == otherConcept then sorted ++ [otherConcept]
  else sorted

/-- The reordering forEach of src/server.js lines 300-313: rows regrouped by
category priority into reorderedData, with the sentinel rows accumulated
separately (otherConceptData) and appended last. -/
def reorderedData (cat : α → String) (data : List α) : List α :=
  let pair := (sortedCategories cat data).foldl
    (fun (acc : List α × List α) c =>
      let catData := data.filter fun row => cat row == c
      if c == otherConcept then (acc.1, acc.2 ++ catData)
      else (acc.1 ++ catData, acc.2))
    ([], [])
  pair.1 ++ pair.2

/-- The inner while loop of src/server.js lines 319-341: starting from the
set of categories seen and the item count so far, admit rows while the
constraint categoryCount * 2 + itemCount <= maxConstraint still holds after
admission; return the admitted rows and the remainder. -/
def pageStep (cat : α → String) (maxConstraint : Int) :
    List α → Finset String → Nat → List α × List α
  | [], _, _ => ([], [])
  | row :: rest, categories, itemCount =>
    let categories' := insert (cat row) categories
    let itemCount' := itemCount + 1
    if (categories'.card * 2 + itemCount' : Int) > maxConstraint then
      ([], row :: rest)
    else
      let r := pageStep cat maxConstraint rest categories' itemCount'
      (row :: r.1, r.2)

/-- The outer paging loop of src/server.js lines 316-350: cut the next page
with pageStep, forcing a one-row page when even the first row violates the
constraint; the fuel argument bounds the number of pages and each iteration
consumes at least one row, so the row count is enough fuel. -/
def paginateLoop (cat : α → String) (maxConstraint : Int) :
    Nat → List α → List (List α)
  | _, [] => []
  | 0, _ :: _ => []
  | fuel + 1, row :: rest =>
    let r := pageStep cat maxConstraint (row :: rest) ∅ 0
    if r.1.isEmpty then [row] :: paginateLoop cat maxConstraint fuel rest
    else r.1 :: paginateLoop cat maxConstraint fuel r.2

/-- The paging of the reordered rows (src/server.js lines 316-350). -/
def paginate (cat : α → String) (maxConstraint : Int) (l : List α) :
    List (List α) :=
  paginateLoop cat maxConstraint l.length l

/-- splitIntoPagesByCategoryPriority (src/server.js lines 282-353). -/
def splitIntoPagesByCategoryPriority (cat : α → String) (data : List α)
    (maxConstraint : Int) : List (List α) :=
  paginate cat maxConstraint (reorderedData cat data)

/-- Totality of the count-descending comparison, for the sortedness of the
stable sort. -/
instance : IsTotal (String × Nat) (fun p q : String × Nat => q.2 ≤ p.2) :=
  ⟨fun a b => Or.symm (Nat.le_total a.2 b.2)⟩

/-- Transitivity of the count-descending comparison. -/
instance : IsTrans (String × Nat) (fun p q : String × Nat => q.2 ≤ p.2) :=
  ⟨fun _ _ _ hab hbc => Nat.le_trans hbc hab⟩

theorem calcLen_cons (a : Nat) (s : JSStr) :
    calculateChineseLength (a :: s) =
      (if isCJK a then 2 else 1) + calculateChineseLength s := by
  have hle : (s.filter isCJK).length ≤ s.length := s.length_filter_le isCJK
  cases h : isCJK a <;>
    simp only [calculateChineseLength, List.filter_cons, h, List.length_cons,
      Bool.false_eq_true, if_true, if_false, ite_true, ite_false] <;>
    omega

theorem calcLen_eq_sum (s : JSStr) :
    calculateChineseLength s = (s.map fun u => if isCJK u then 2 else 1).sum := by
  induction s with
  | nil => rfl
  | cons a s ih => rw [calcLen_cons, List.map_cons, List.sum_cons, ih]

theorem calcLen_append (a b : JSStr) :
    calculateChineseLength (a ++ b) =
      calculateChineseLength a + calculateChineseLength b := by
  simp [calcLen_eq_sum]

theorem calcLen_take_le (n : Nat) (s : JSStr) :
    calculateChineseLength (s.take n) ≤ calculateChineseLength s := by
  conv_rhs => rw [← List.take_append_drop n s]
  rw [calcLen_append]
  exact Nat.le_add_right _ _

/-! ### Initial-segment helper -/

theorem initSeg_refl (a : JSStr) : InitSeg a a := ⟨[], by simp⟩

theorem initSeg_trans {a b c : JSStr} (h1 : InitSeg a b) (h2 : InitSeg b c) :
    InitSeg a c := by
  obtain ⟨t1, rfl⟩ := h1
  obtain ⟨t2, rfl⟩ := h2
  exact ⟨t1 ++ t2, by simp⟩

theorem initSeg_take (n : Nat) (s : JSStr) : InitSeg (s.take n) s :=
  ⟨s.drop n, (List.take_append_drop n s).symm⟩

theorem initSeg_dropLast (s : JSStr) : InitSeg s.dropLast s := by
  rcases eq_or_ne s [] with rfl | h
  · exact initSeg_refl []
  · exact ⟨[s.getLast h], (List.dropLast_append_getLast h).symm⟩

theorem initSeg_calcLen_le {a b : JSStr} (h : InitSeg a b) :
    calculateChineseLength a ≤ calculateChineseLength b := by
  obtain ⟨t, rfl⟩ := h
  rw [calcLen_append]
  exact Nat.le_add_right _ _

theorem initSeg_isPrefixOf {a b : JSStr} (h : InitSeg a b) :
    a.isPrefixOf b = true := by
  obtain ⟨t, rfl⟩ := h
  induction a with
  | nil => simp [List.isPrefixOf]
  | cons x xs ih => simp [List.isPrefixOf, List.append_eq, ih]

/-! ### Trailing-plus stripping lemmas -/

theorem stripLoop_initSeg : ∀ (fuel : Nat) (s : JSStr),
    InitSeg (stripLoop fuel s) s
  | 0, s => initSeg_refl s
  | fuel + 1, s => by
    rw [stripLoop]
    by_cases h : jsEndsWith s 43 = true
    · rw [if_pos h]
      exact initSeg_trans (stripLoop_initSeg fuel s.dropLast) (initSeg_dropLast s)
    · rw [if_neg h]
      exact initSeg_refl s

theorem stripLoop_not_endsWith : ∀ (fuel : Nat) (s : JSStr),
    s.length ≤ fuel → jsEndsWith (stripLoop fuel s) 43 = false
  | 0, s, h => by
    have : s = [] := List.eq_nil_of_length_eq_zero (Nat.le_zero.1 h)
    subst this
    rfl
  | fuel + 1, s, h => by
    rw [stripLoop]
    by_cases he : jsEndsWith s 43 = true
    · rw [if_pos he]
      have hne : s ≠ [] := by
        intro hn
        rw [hn] at he
        simp [jsEndsWith] at he
      have : s.dropLast.length ≤ fuel := by
        rw [List.length_dropLast]
        have := List.length_pos.2 hne
        omega
      exact stripLoop_not_endsWith fuel s.dropLast this
    · rw [if_neg he]
      exact Bool.of_not_eq_true he

theorem stripLoop_eq_self (fuel : Nat) {s : JSStr}
    (h : jsEndsWith s 43 = false) : stripLoop fuel s = s := by
  cases fuel with
  | zero => rfl
  | succ fuel => rw [stripLoop, if_neg (by simp [h])]

theorem strip_initSeg (s : JSStr) : InitSeg (stripTrailingPlus s) s :=
  stripLoop_initSeg s.length s

theorem strip_calcLen_le (s : JSStr) :
    calculateChineseLength (stripTrailingPlus s) ≤ calculateChineseLength s :=
  initSeg_calcLen_le (strip_initSeg s)

theorem strip_not_endsWith (s : JSStr) :
    jsEndsWith (stripTrailingPlus s) 43 = false :=
  stripLoop_not_endsWith s.length s (Nat.le_refl _)

theorem strip_eq_self {s : JSStr} (h : jsEndsWith s 43 = false) :
    stripTrailingPlus s = s :=
  stripLoop_eq_self s.length h

/-! ### Truncation-loop lemmas -/

theorem truncateLoop_calcLen_le (s : JSStr) (m : Nat) :
    ∀ i, calculateChineseLength (truncateLoop s m i) ≤ m := by
  intro i
  induction i with
  | zero => simp [truncateLoop, calculateChineseLength]
  | succ i ih =>
    rw [truncateLoop]
    by_cases h : calculateChineseLength (s.take (i + 1)) ≤ m
    · rw [if_pos h]
      refine le_trans (le_trans (strip_calcLen_le _) ?_) h
      rcases hli : lastIndexOf 43 (s.take (i + 1)) with _ | idx
      · simp
      · simp only
        split
        · exact calcLen_take_le _ _
        · exact Nat.le_refl _
    · rw [if_neg h]
      exact ih

theorem truncateLoop_not_endsWith (s : JSStr) (m : Nat) :
    ∀ i, jsEndsWith (truncateLoop s m i) 43 = false := by
  intro i
  induction i with
  | zero => rfl
  | succ i ih =>
    rw [truncateLoop]
    by_cases h : calculateChineseLength (s.take (i + 1)) ≤ m
    · rw [if_pos h]
      exact strip_not_endsWith _
    · rw [if_neg h]
      exact ih

theorem truncateLoop_initSeg (s : JSStr) (m : Nat) :
    ∀ i, InitSeg (truncateLoop s m i) s := by
  intro i
  induction i with
  | zero => exact ⟨s, rfl⟩
  | succ i ih =>
    rw [truncateLoop]
    by_cases h : calculateChineseLength (s.take (i + 1)) ≤ m
    · rw [if_pos h]
      refine initSeg_trans (initSeg_trans (strip_initSeg _) ?_) (initSeg_take (i + 1) s)
      rcases lastIndexOf 43 (s.take (i + 1)) with _ | idx
      · exact initSeg_refl _
      · simp only
        split
        · exact initSeg_take _ _
        · exact initSeg_refl _
    · rw [if_neg h]
      exact ih

/-! ### Trimmer lemmas -/

theorem trim_calcLen_le (s : JSStr) (m : Nat) :
    calculateChineseLength (trimReasonCategoryField s m) ≤ m := by
  rw [trimReasonCategoryField]
  by_cases h : calculateChineseLength s ≤ m
  · rw [if_pos h]
    exact le_trans (strip_calcLen_le s) h
  · rw [if_neg h]
    exact truncateLoop_calcLen_le s m s.length

theorem trim_not_endsWith (s : JSStr) (m : Nat) :
    jsEndsWith (trimReasonCategoryField s m) 43 = false := by
  rw [trimReasonCategoryField]
  by_cases h : calculateChineseLength s ≤ m
  · rw [if_pos h]
    exact strip_not_endsWith s
  · rw [if_neg h]
    exact truncateLoop_not_endsWith s m s.length

theorem trim_initSeg (s : JSStr) (m : Nat) :
    InitSeg (trimReasonCategoryField s m) s := by
  rw [trimReasonCategoryField]
  by_cases h : calculateChineseLength s ≤ m
  · rw [if_pos h]
    exact strip_initSeg s
  · rw [if_neg h]
    exact truncateLoop_initSeg s m s.length

theorem trim_idem (s : JSStr) (m : Nat) :
    trimReasonCategoryField (trimReasonCategoryField s m) m =
      trimReasonCategoryField s m := by
  conv_lhs => rw [trimReasonCategoryField]
  rw [if_pos (trim_calcLen_le s m)]
  exact strip_eq_self (trim_not_endsWith s m)

/-! ### Claims about the category-field trimmer -/

/-- Claim C3: for every string input and every width budget maxLength, the
string returned by trimReasonCategoryField has a CJK-aware computed width
(calculateChineseLength) that does not exceed maxLength. -/
theorem C3_trimmer_width_le (s : JSStr) (maxLength : Nat) :
    calculateChineseLength (trimReasonCategoryField s maxLength) ≤ maxLength :=
  trim_calcLen_le s maxLength

/-- Claim C5: for every string input and every width budget, the string
returned by trimReasonCategoryField never ends with the plus character
(code unit 43). -/
theorem C5_trimmer_no_trailing_plus (s : JSStr) (maxLength : Nat) :
    jsEndsWith (trimReasonCategoryField s maxLength) 43 = false :=
  trim_not_endsWith s maxLength

/-- Claim C4 counterexample: on the raw cell value "a +" (code units 97 32
43), one application of normalize-then-trim yields "a " (the plus is
stripped, exposing a trailing space), and a second application re-normalizes
that trailing space away, so the composite is not idempotent. -/
theorem C4_counterexample :
    processReasonCategoryValue (some (processReasonCategoryValue (some [97, 32, 43])))
      ≠ processReasonCategoryValue (some [97, 32, 43]) := by decide

/-- Claim C4 amended: the trimmer proper is idempotent at the default width
budget 36 — re-applying trimReasonCategoryField to the processed value
returns it unchanged; only the renewed whitespace normalization in the second
composite application can alter the value. -/
theorem C4_amended_trim_idempotent (raw : Option JSStr) :
    trimReasonCategoryField (processReasonCategoryValue raw) 36 =
      processReasonCategoryValue raw :=
  trim_idem (normalizeReasonCategory raw) 36

/-- Claim C10: for every raw cell value, the trimmed category field produced
by processReasonCategoryField is an initial segment of the
whitespace-normalized string: trimming only removes code units from the end
and never alters, inserts, or reorders them. -/
theorem C10_processed_initial_segment (raw : Option JSStr) :
    (processReasonCategoryValue raw).isPrefixOf (normalizeReasonCategory raw) = true :=
  initSeg_isPrefixOf (trim_initSeg (normalizeReasonCategory raw) 36)

/-- Claim C8: findColumn returns the target name itself (the exactly
matching key) whenever some key of the first row equals it, regardless of
other fuzzy matches; and it returns none when no key matches exactly, after
trimming, or as a substring — in particular on the empty dataset. -/
theorem C8_findColumn_exact_and_none (data : List (List JSStr))
    (columnName : JSStr) :
    (∀ firstRow rest, data = firstRow :: rest → columnName ∈ firstRow →
      findColumn data columnName = some columnName) ∧
    ((∀ firstRow rest, data = firstRow :: rest →
        ∀ col ∈ firstRow, ¬ col = columnName ∧ ¬ jsTrim col = columnName ∧
          jsIncludes col columnName = false) →
      findColumn data columnName = none) := by
  constructor
  · rintro firstRow rest rfl hmem
    rw [findColumn]
    rw [if_pos (by simpa using hmem)]
  · intro h
    cases data with
    | nil => rfl
    | cons firstRow rest =>
      have hall := h firstRow rest rfl
      rw [findColumn]
      have hnm : columnName ∉ firstRow := fun hmem =>
        (hall columnName hmem).1 rfl
      have hcont : ¬ (firstRow.contains columnName = true) := by
        intro hc
        exact hnm (by simpa using hc)
      rw [if_neg hcont]
      have hfind1 : (firstRow.find? fun col => jsTrim col == columnName) = none :=
        List.find?_eq_none.2 fun col hcol hbeq =>
          (hall col hcol).2.1 (beq_iff_eq.1 hbeq)
      have hfind2 : (firstRow.find? fun col => jsIncludes col columnName) = none :=
        List.find?_eq_none.2 fun col hcol => by
          simp [(hall col hcol).2.2]
      simp only [hfind1, hfind2]

/-- Witness for claim C8 at concrete inputs: the key B (code unit 66) is
found exactly among keys A and B, and the two-unit target BC is not found in
a row whose only key is A. -/
theorem C8_findColumn_witness :
    findColumn [[[65], [66]]] [66] = some [66] ∧
      findColumn [[[65]]] [66, 67] = none :=
  ⟨(C8_findColumn_exact_and_none [[[65], [66]]] [66]).1 [[65], [66]] [] rfl
      (by decide),
    (C8_findColumn_exact_and_none [[[65]]] [66, 67]).2 (by
      rintro firstRow rest h col hcol
      obtain ⟨rfl, rfl⟩ := List.cons.inj h
      simp only [List.mem_singleton] at hcol
      subst hcol
      exact ⟨by decide, by decide, by decide⟩)⟩

/-! ### Paging-loop lemmas -/

theorem pageStep_append (cat : α → String) (maxC : Int) :
    ∀ (l : List α) (cats : Finset String) (n : Nat),
      (pageStep cat maxC l cats n).1 ++ (pageStep cat maxC l cats n).2 = l := by
  intro l
  induction l with
  | nil => intro cats n; rfl
  | cons row rest ih =>
    intro cats n
    simp only [pageStep]
    split
    · rfl
    · simp [ih]

theorem pageStep_bound (cat : α → String) (maxC : Int) :
    ∀ (l : List α) (cats : Finset String) (n : Nat),
      (pageStep cat maxC l cats n).1 ≠ [] →
      ((cats ∪ ((pageStep cat maxC l cats n).1.map cat).toFinset).card * 2
        + (n + (pageStep cat maxC l cats n).1.length) : Int) ≤ maxC := by
  intro l
  induction l with
  | nil => intro cats n h; exact absurd rfl h
  | cons row rest ih =>
    intro cats n h
    simp only [pageStep] at h ⊢
    split at h <;> rename_i hle
    · simp at h
    · rw [if_neg hle]
      push_neg at hle
      simp only [List.map_cons, List.toFinset_cons, Finset.union_insert,
        ← Finset.insert_union, List.length_cons]
      rcases heq : (pageStep cat maxC rest (insert (cat row) cats) (n + 1)).1
        with _ | ⟨y, ys⟩
      · simp only [heq, List.map_nil, List.toFinset_nil, Finset.union_empty,
          List.length_nil]
        push_cast
        push_cast at hle
        omega
      · have hb := ih (insert (cat row) cats) (n + 1) (by rw [heq]; simp)
        rw [heq] at hb
        simp only [List.length_cons] at hb ⊢
        push_cast at hb ⊢
        omega

theorem paginateLoop_flatten (cat : α → String) (maxC : Int) :
    ∀ (fuel : Nat) (l : List α), l.length ≤ fuel →
      (paginateLoop cat maxC fuel l).flatten = l := by
  intro fuel
  induction fuel with
  | zero =>
    intro l h
    have : l = [] := List.eq_nil_of_length_eq_zero (Nat.le_zero.1 h)
    subst this
    rfl
  | succ fuel ih =>
    intro l h
    cases l with
    | nil => rfl
    | cons row rest =>
      rw [paginateLoop]
      by_cases he : (pageStep cat maxC (row :: rest) ∅ 0).1.isEmpty = true
      · rw [if_pos he, List.flatten_cons,
          ih rest (by simp only [List.length_cons] at h; omega)]
        rfl
      · rw [if_neg he, List.flatten_cons]
        have happ := pageStep_append cat maxC (row :: rest) ∅ 0
        have hne : (pageStep cat maxC (row :: rest) ∅ 0).1 ≠ [] := by
          simpa [List.isEmpty_iff] using he
        have hlen : (pageStep cat maxC (row :: rest) ∅ 0).2.length ≤ fuel := by
          have h1 : (pageStep cat maxC (row :: rest) ∅ 0).1.length +
              (pageStep cat maxC (row :: rest) ∅ 0).2.length = rest.length + 1 := by
            rw [← List.length_append, happ, List.length_cons]
          have h2 : 0 < (pageStep cat maxC (row :: rest) ∅ 0).1.length :=
            List.length_pos.2 hne
          simp only [List.length_cons] at h
          omega
        rw [ih _ hlen, happ]

theorem paginateLoop_pages (cat : α → String) (maxC : Int) :
    ∀ (fuel : Nat) (l : List α), l.length ≤ fuel →
      ∀ page ∈ paginateLoop cat maxC fuel l,
        (2 * ((page.map cat).toFinset.card : Int) + page.length ≤ maxC) ∨
          page.length = 1 := by
  intro fuel
  induction fuel with
  | zero =>
    intro l h
    have : l = [] := List.eq_nil_of_length_eq_zero (Nat.le_zero.1 h)
    subst this
    intro page hp
    exact absurd hp (by simp [paginateLoop])
  | succ fuel ih =>
    intro l h
    cases l with
    | nil => intro page hp; exact absurd hp (by simp [paginateLoop])
    | cons row rest =>
      rw [paginateLoop]
      by_cases he : (pageStep cat maxC (row :: rest) ∅ 0).1.isEmpty = true
      · rw [if_pos he]
        intro page hp
        rcases List.mem_cons.1 hp with rfl | hp
        · right; rfl
        · exact ih rest (by simp only [List.length_cons] at h; omega) page hp
      · rw [if_neg he]
        intro page hp
        have hne : (pageStep cat maxC (row :: rest) ∅ 0).1 ≠ [] := by
          simpa [List.isEmpty_iff] using he
        rcases List.mem_cons.1 hp with rfl | hp
        · left
          have hb := pageStep_bound cat maxC (row :: rest) ∅ 0 hne
          simp only [Finset.empty_union, Nat.zero_add] at hb
          push_cast at hb ⊢
          omega
        · have happ := pageStep_append cat maxC (row :: rest) ∅ 0
          have hlen : (pageStep cat maxC (row :: rest) ∅ 0).2.length ≤ fuel := by
            have h1 : (pageStep cat maxC (row :: rest) ∅ 0).1.length +
                (pageStep cat maxC (row :: rest) ∅ 0).2.length = rest.length + 1 := by
              rw [← List.length_append, happ, List.length_cons]
            have h2 : 0 < (pageStep cat maxC (row :: rest) ∅ 0).1.length :=
              List.length_pos.2 hne
            simp only [List.length_cons] at h
            omega
          exact ih _ hlen page hp

theorem paginate_flatten (cat : α → String) (maxC : Int) (l : List α) :
    (paginate cat maxC l).flatten = l :=
  paginateLoop_flatten cat maxC l.length l (Nat.le_refl _)

/-! ### First-occurrence index lemmas -/

theorem sortedCategories_split (cat : α → String) (data : List α) :
    ∃ ns ex, sortedCategories cat data = ns ++ ex ∧
      (∀ c ∈ ns, ¬ c = otherConcept) ∧ (∀ c ∈ ex, c = otherConcept) := by
  have hns : ∀ c ∈ (List.insertionSort (fun p q : String × Nat => q.2 ≤ p.2)
      ((jsEntries (categoryCounts cat data)).filter fun p => p.1 != otherConcept)).map
      Prod.fst, ¬ c = otherConcept := by
    intro c hcm
    rcases List.mem_map.1 hcm with ⟨p, hpmem, rfl⟩
    have hpf : p ∈ (jsEntries (categoryCounts cat data)).filter fun p => p.1 != otherConcept :=
      (List.perm_insertionSort _ _).mem_iff.1 hpmem
    exact bne_iff_ne.1 (List.mem_filter.1 hpf).2
  simp only [sortedCategories]
  by_cases hc : ((categoryCounts cat data).any fun p => p.1 == otherConcept) = true
  · rw [if_pos hc]
    exact ⟨_, [otherConcept], rfl, hns, by simp⟩
  · rw [if_neg hc]
    exact ⟨_, [], (List.append_nil _).symm, hns, by simp⟩

theorem reorder_foldl (cat : α → String) (data : List α) :
    ∀ (cats : List String) (a b : List α),
      cats.foldl (fun (acc : List α × List α) c =>
          let catData := data.filter fun row => cat row == c
          if c == otherConcept then (acc.1, acc.2 ++ catData)
          else (acc.1 ++ catData, acc.2)) (a, b) =
        (a ++ ((cats.filter fun c => !(c == otherConcept)).map
            fun c => data.filter fun row => cat row == c).flatten,
         b ++ ((cats.filter fun c => c == otherConcept).map
            fun c => data.filter fun row => cat row == c).flatten) := by
  intro cats
  induction cats with
  | nil => intro a b; simp
  | cons c cs ih =>
    intro a b
    rw [List.foldl_cons]
    cases hc : (c == otherConcept)
    · show (cs.foldl _ (a ++ (data.filter fun row => cat row == c), b)) = _
      rw [ih]
      simp [List.filter_cons, hc, List.append_assoc]
    · show (cs.foldl _ (a, b ++ (data.filter fun row => cat row == c))) = _
      rw [ih]
      simp [List.filter_cons, hc, List.append_assoc]

theorem reorderedData_eq (cat : α → String) (data : List α) :
    reorderedData cat data =
      (((sortedCategories cat data).filter fun c => !(c == otherConcept)).map
          (fun c => data.filter fun row => cat row == c)).flatten ++
      (((sortedCategories cat data).filter fun c => c == otherConcept).map
          (fun c => data.filter fun row => cat row == c)).flatten := by
  simp only [reorderedData]
  rw [reorder_foldl]
  simp

/-- Claim C1: every page produced by splitIntoPagesByCategoryPriority
satisfies 2 x (number of distinct grouping-field values in the page) +
(number of rows in the page) <= maxConstraint, or else the page contains
exactly one row. -/
theorem C1_page_invariant (cat : α → String) (data : List α) (maxC : Int)
    (page : List α) (hp : page ∈ splitIntoPagesByCategoryPriority cat data maxC) :
    (2 * ((page.map cat).toFinset.card : Int) + page.length ≤ maxC) ∨
      page.length = 1 :=
  paginateLoop_pages cat maxC (reorderedData cat data).length
    (reorderedData cat data) (Nat.le_refl _) page hp

/-- Witness for claim C1 at a concrete dataset: the page with rows b, b, a
of the five-row dataset below satisfies the constraint at budget 7. -/
theorem C1_page_invariant_witness :
    (2 * (((["b", "b", "a"] : List String).map (fun s : String => s)).toFinset.card : Int)
        + (["b", "b", "a"] : List String).length ≤ 7) ∨
      (["b", "b", "a"] : List String).length = 1 :=
  C1_page_invariant (fun s : String => s) ["a", "b", "b", "其他概念", "c"] 7
    ["b", "b", "a"] (by decide)

/-! ### Claims C2 and C6 -/

/-- Claim C6: in the page sequence produced by
splitIntoPagesByCategoryPriority, every row of the sentinel group comes
after every row of the other groups: the concatenated page sequence splits
into a part with no sentinel rows followed by a part of only sentinel
rows. -/
theorem C6_sentinel_rows_last (cat : α → String) (data : List α) (maxC : Int) :
    ∃ A B, (splitIntoPagesByCategoryPriority cat data maxC).flatten = A ++ B ∧
      (∀ row ∈ A, cat row ≠ otherConcept) ∧
      (∀ row ∈ B, cat row = otherConcept) := by
  rw [splitIntoPagesByCategoryPriority, paginate_flatten, reorderedData_eq]
  refine ⟨_, _, rfl, ?_, ?_⟩
  · intro row hrow
    rcases List.mem_flatten.1 hrow with ⟨l, hl, hrl⟩
    rcases List.mem_map.1 hl with ⟨c, hcmem, rfl⟩
    have hcne : ¬ (c == otherConcept) = true := by
      simpa using (List.mem_filter.1 hcmem).2
    have hrc : cat row = c := beq_iff_eq.1 (List.mem_filter.1 hrl).2
    exact fun he => hcne (beq_iff_eq.2 (hrc.symm.trans he))
  · intro row hrow
    rcases List.mem_flatten.1 hrow with ⟨l, hl, hrl⟩
    rcases List.mem_map.1 hl with ⟨c, hcmem, rfl⟩
    have hceq : c = otherConcept := beq_iff_eq.1 (List.mem_filter.1 hcmem).2
    exact (beq_iff_eq.1 (List.mem_filter.1 hrl).2).trans hceq

/-! ### Stability of the stats sort -/

end OnlineThs
